import Mathlib

/-!
Shallow embedding of the aggregation pipeline of `cmd/aws-cost-sankey/main.go`
(the current revision, the one with the replay path and rounding).

Modelling conventions:
* Go strings become `List Char`; Go byte-level length and slicing are taken at
  character level (all labels and markers in play are ASCII, where the two
  coincide), and `unicode.IsSpace` is modelled exactly (the Unicode
  White_Space code points).
* `float64` amounts become exact rationals `ℚ`.  `strconv.ParseFloat` is
  modelled as an exact decimal/exponent parser with the float64 range-error
  boundary (`parseFloat`); binary-float rounding of in-range values is the
  exact-rational convention, and hex, underscore and inf/NaN forms are
  outside the modelled sublanguage (see the parseFloat doc comment).
* The nested map `results : map[string]map[string]float64` becomes an edge
  list keyed by `(parent, child)` with unique keys (`Graph`); Go map iteration
  order is unspecified, so list order carries no meaning beyond the multiset.
* `log.Fatalf` (fail-fast abort) becomes an `Option` result: `none` means the
  run aborted and no output is produced.
-/

set_option maxRecDepth 4000
set_option exponentiation.threshold 2000

namespace ACS

/-- Characters of a Go string. -/
abbrev Str := List Char

/-- Whitespace test used by strings.Fields: Go's unicode.IsSpace, true on
exactly the Unicode White_Space code points — 0x09-0x0D (tab, newline,
vertical tab, form feed, carriage return), space, NEL 0x85, NBSP 0xA0, and
the higher space separators 0x1680, 0x2000-0x200A, 0x2028, 0x2029, 0x202F,
0x205F, 0x3000. -/
def isSp (c : Char) : Bool :=
  (9 ≤ c.toNat && c.toNat ≤ 13) || c.toNat == 32 || c.toNat == 133 ||
    c.toNat == 160 || c.toNat == 0x1680 ||
    (0x2000 ≤ c.toNat && c.toNat ≤ 0x200A) || c.toNat == 0x2028 ||
    c.toNat == 0x2029 || c.toNat == 0x202F || c.toNat == 0x205F ||
    c.toNat == 0x3000

/-- Bracket characters, the cutset "[]" used by strings.Trim in readData. -/
def isBr (c : Char) : Bool :=
  c == '[' || c == ']'

/-- Accumulator loop for `fields`: `acc` holds the current token reversed. -/
def fieldsAux : Str → Str → List Str
  | acc, [] => if acc = [] then [] else [acc.reverse]
  | acc, ch :: cs =>
    if isSp ch then
      if acc = [] then fieldsAux [] cs else acc.reverse :: fieldsAux [] cs
    else fieldsAux (ch :: acc) cs

/-- strings.Fields: split around maximal runs of whitespace. -/
def fields (s : Str) : List Str := fieldsAux [] s

/-- strings.Join(parts, " "). -/
def joinSpace : List Str → Str
  | [] => []
  | [t] => t
  | t :: ts => t ++ ' ' :: joinSpace ts

/-- strings.Split(s, "\n"). -/
def splitLines : Str → List Str
  | [] => [[]]
  | ch :: cs =>
    if ch = '\n' then [] :: splitLines cs
    else
      match splitLines cs with
      | [] => [[ch]]
      | l :: ls => (ch :: l) :: ls

/-- strings.Trim(s, "[]"): drop leading and trailing bracket characters. -/
def trimBrackets (s : Str) : Str :=
  ((s.dropWhile isBr).reverse.dropWhile isBr).reverse

/-- Little-endian decimal digits of `n`, with explicit fuel (any fuel ≥ n is
enough; used so that the definition reduces by structural recursion). -/
def natDigitsRev : Nat → Nat → List Nat
  | _, 0 => []
  | 0, _ => []
  | fuel + 1, n + 1 => (n + 1) % 10 :: natDigitsRev fuel ((n + 1) / 10)

/-- Decimal digit characters of `n`, most significant first (Go "%d"). -/
def natChars (n : Nat) : Str :=
  if n = 0 then ['0'] else ((natDigitsRev n n).map Nat.digitChar).reverse

/-- Rational floor, computably (this is exactly `Rat.floor`). -/
def qfloor (q : ℚ) : ℤ := q.num / q.den

/-- math.Round: round to the nearest integer, ties away from zero (the sign
test is taken on the numerator, which is the sign of the value). -/
def goRound (q : ℚ) : ℚ :=
  if q.num < 0 then -(((qfloor (-q + 1/2) : ℤ) : ℚ)) else ((qfloor (q + 1/2) : ℤ) : ℚ)

/-- Round to the nearest integer, ties to even, as fixed-precision decimal
formatting of a float does; for amounts with at most two fraction digits the
tie case never arises.  The fractional part r satisfies 0 ≤ r < 1, and the
comparisons with one half are cross-multiplied so they stay on integers. -/
def roundHalfEven (x : ℚ) : ℤ :=
  let f := qfloor x
  let r := x - (f : ℚ)
  if (r.den : ℤ) < 2 * r.num then f + 1
  else if 2 * r.num < (r.den : ℤ) then f
  else if f % 2 = 0 then f else f + 1

/-- The ten decimal digit characters. -/
def digitChars : List Char := ['0', '1', '2', '3', '4', '5', '6', '7', '8', '9']

/-- fmt.Sprintf("%.2f", q): the sign of the value, then the magnitude rounded
to two fraction digits, always rendered with exactly two fraction digits. -/
def fmt2 (q : ℚ) : Str :=
  let aq := if q.num < 0 then -q else q
  let m := (roundHalfEven (aq * 100)).toNat
  (if q.num < 0 then ['-'] else []) ++
    natChars (m / 100) ++ '.' :: [Nat.digitChar (m / 10 % 10), Nat.digitChar (m % 10)]

/-- Numeric value of a run of decimal digit characters. -/
def digitsToNat (ds : Str) : Nat :=
  ds.foldl (fun a ch => 10 * a + (ch.toNat - 48)) 0

/-- Optional leading sign of a decimal literal. -/
def parseSign (s : Str) : ℚ × Str :=
  match s with
  | [] => (1, [])
  | ch :: rest =>
    if ch = '-' then (-1, rest) else if ch = '+' then (1, rest) else (1, ch :: rest)

/-- Optional sign of an exponent part. -/
def stripExpSign (s : Str) : Bool × Str :=
  match s with
  | [] => (false, [])
  | d :: r => if d = '-' then (true, r) else if d = '+' then (false, r) else (false, d :: r)

/-- Optional exponent suffix of a decimal literal; `none` on garbage. -/
def parseExpTail (mant : ℚ) (s : Str) : Option ℚ :=
  match s with
  | [] => some mant
  | ch :: rest =>
    if ch = 'e' ∨ ch = 'E' then
      if (stripExpSign rest).2.takeWhile Char.isDigit = []
          ∨ (stripExpSign rest).2.dropWhile Char.isDigit ≠ [] then none
      else some (if (stripExpSign rest).1 then
          mant / 10 ^ digitsToNat ((stripExpSign rest).2.takeWhile Char.isDigit)
        else mant * 10 ^ digitsToNat ((stripExpSign rest).2.takeWhile Char.isDigit))
    else none

/-- The decimal sublanguage of strconv.ParseFloat — optional sign, digits with
optional fraction and optional exponent — with the numeric value taken
exactly.  Hex, underscore-separated and inf/infinity/NaN forms are outside
the sublanguage and map to `none`. -/
def parseFloatNum (s : Str) : Option ℚ :=
  match (parseSign s).2.dropWhile Char.isDigit with
  | '.' :: s3 =>
    if (parseSign s).2.takeWhile Char.isDigit = [] ∧ s3.takeWhile Char.isDigit = [] then none
    else parseExpTail ((parseSign s).1 *
      ((digitsToNat ((parseSign s).2.takeWhile Char.isDigit) : ℚ) +
        (digitsToNat (s3.takeWhile Char.isDigit) : ℚ) / 10 ^ (s3.takeWhile Char.isDigit).length))
      (s3.dropWhile Char.isDigit)
  | _ =>
    if (parseSign s).2.takeWhile Char.isDigit = [] then none
    else parseExpTail ((parseSign s).1 * (digitsToNat ((parseSign s).2.takeWhile Char.isDigit) : ℚ))
      ((parseSign s).2.dropWhile Char.isDigit)

/-- Smallest magnitude that float64 conversion rounds up to infinity:
strconv returns ErrRange at or above it (half way between the largest finite
float64 and the next power of two; the tie rounds to even, hence to Inf).
The power is taken in ℕ so that it evaluates fast. -/
def overflowBound : ℚ := (((2 ^ 54 - 1) * 2 ^ 970 : ℕ) : ℚ)

/-- Go's decimal-conversion underflow shortcut: a nonzero value below 10^-331
is reported as a range error (values at or above it round normally, possibly
to zero, with no error). -/
def underflowBound : ℚ := 1 / ((10 ^ 331 : ℕ) : ℚ)

/-- The value converts to a finite float64 with no range error. -/
def inFloat64Range (q : ℚ) : Bool :=
  decide (|q| < overflowBound) && (decide (q = 0) || decide (underflowBound ≤ |q|))

/-- strconv.ParseFloat(s, 64) as used by readData, including its error
boundary on the modelled sublanguage: a syntax failure or a range error
(overflow to Inf, or the nonzero-underflow shortcut) yields `none`, which is
exactly when readData aborts.  Forms outside the sublanguage (hex,
underscores, inf/NaN) also yield `none`: theorems concluding success never
cover them, and the abort theorem uses only the character test below, which
is sound for every form ParseFloat accepts. -/
def parseFloat (s : Str) : Option ℚ :=
  match parseFloatNum s with
  | none => none
  | some q => if inFloat64Range q then some q else none

/-- Non-digit characters that can occur in some string strconv.ParseFloat
accepts: hex digits and markers, exponent markers, the letters of the
case-insensitive special forms inf, infinity and nan, the underscore digit
separator, signs and the decimal point. -/
def goNumberExtra : List Char :=
  ['a', 'b', 'c', 'd', 'e', 'f', 'A', 'B', 'C', 'D', 'E', 'F',
   'i', 'I', 'n', 'N', 't', 'T', 'y', 'Y', 'x', 'X', 'p', 'P',
   '_', '+', '-', '.']

/-- A character that can occur in some string strconv.ParseFloat accepts.
A token containing any other character is a ParseFloat syntax error whatever
the rest of the token looks like. -/
def goNumChar (c : Char) : Bool :=
  c.isDigit || decide (c ∈ goNumberExtra)

/-- The magnitude is strictly below the float64 overflow threshold. -/
def fitsFloat (v : ℚ) : Bool := decide (|v| < overflowBound)

/-- The nested map `results` flattened to an edge list keyed by
`(parent, child)`; amounts are exact rationals. -/
abbrev Graph := List (Str × Str × ℚ)

/-- Map lookup: `results[p][c]` as an optional value. -/
def lookupEdge : Graph → Str → Str → Option ℚ
  | [], _, _ => none
  | (p', c', v) :: g, p, c => if p' = p ∧ c' = c then some v else lookupEdge g p c

/-- Map read with the Go zero-value default for an absent key. -/
def edgeVal (g : Graph) (p c : Str) : ℚ := (lookupEdge g p c).getD 0

/-- `results[p][c] += x` (an absent key starts from 0). -/
def addEdge : Graph → Str → Str → ℚ → Graph
  | [], p, c, x => [(p, c, x)]
  | (p', c', v) :: g, p, c, x =>
    if p' = p ∧ c' = c then (p', c', v + x) :: g else (p', c', v) :: addEdge g p c x

/-- `results[p][c] = x` (overwrite). -/
def setEdge : Graph → Str → Str → ℚ → Graph
  | [], p, c, x => [(p, c, x)]
  | (p', c', v) :: g, p, c, x =>
    if p' = p ∧ c' = c then (p', c', x) :: g else (p', c', v) :: setEdge g p c x

/-- The `(parent, child)` keys of a graph, in order. -/
def keys (g : Graph) : List (Str × Str) := g.map (fun e => (e.1, e.2.1))

/-- The raw environment tag marker "environment$". -/
def envMarker : Str := ("environment$").toList

/-- The root label "all". -/
def allLabel : Str := ("all").toList

/-- The fallback suffix "-unknown". -/
def unknownTail : Str := ("-unknown").toList

/-- main.go:197-202 — strip the tag marker when the raw tag is longer than the
marker (a length-only test), else fall back to "account-unknown". -/
def normalizeEnv (accountName tagRaw : Str) : Str :=
  if envMarker.length < tagRaw.length then tagRaw.drop envMarker.length
  else accountName ++ unknownTail

/-- One grouped cost entry of the live-fetch path: the account being fetched,
the raw environment tag (group.Keys[0]), the service or usage-type category
(group.Keys[1]) and the raw amount string. -/
structure LiveRecord where
  account : Str
  envTag : Str
  service : Str
  amount : Str
deriving DecidableEq

/-- Body of the Groups loop of prepareResults (main.go:193-229) for a single
record: parse the amount (abort on failure), round it, and accumulate into the
three tiers.  The Go code parses with bitSize 32; the numeric value is taken
exactly here. -/
def prepareRecord (g : Graph) (r : LiveRecord) : Option Graph :=
  match parseFloat r.amount with
  | none => none
  | some q =>
    let environment := normalizeEnv r.account r.envTag
    let x := goRound q
    some (addEdge (addEdge (addEdge g allLabel r.account x) r.account environment x)
      environment r.service x)

/-- prepareResults (main.go:189-231) over the flattened sequence of grouped
entries, across all time buckets and accounts processed in order by main. -/
def prepareResults : Graph → List LiveRecord → Option Graph
  | g, [] => some g
  | g, r :: rs =>
    match prepareRecord g r with
    | none => none
    | some g2 => prepareResults g2 rs

/-- Parsed and rounded amount of a live record (meaningful when parsing
succeeds; records are only consumed when it does). -/
def recAmount (r : LiveRecord) : ℚ := goRound ((parseFloat r.amount).getD 0)

/-- Number of times record `r` updates the key `(p, c)` (between 0 and 3),
as a rational coefficient. -/
def hitCount (r : LiveRecord) (p c : Str) : ℚ :=
  (if allLabel = p ∧ r.account = c then 1 else 0)
    + (if r.account = p ∧ normalizeEnv r.account r.envTag = c then 1 else 0)
    + (if normalizeEnv r.account r.envTag = p ∧ r.service = c then 1 else 0)

/-- Record `r` updates the key `(p, c)` through at least one of its tiers. -/
def sharesKey (r : LiveRecord) (p c : Str) : Bool :=
  decide ((allLabel = p ∧ r.account = c)
    ∨ (r.account = p ∧ normalizeEnv r.account r.envTag = c)
    ∨ (normalizeEnv r.account r.envTag = p ∧ r.service = c))

/-- The three keys a record updates are pairwise distinct (rules out a record
reaching the same map cell through two different tiers). -/
def keysDistinct (r : LiveRecord) : Prop :=
  (allLabel, r.account) ≠ (r.account, normalizeEnv r.account r.envTag)
    ∧ (allLabel, r.account) ≠ (normalizeEnv r.account r.envTag, r.service)
    ∧ (r.account, normalizeEnv r.account r.envTag) ≠ (normalizeEnv r.account r.envTag, r.service)

instance (r : LiveRecord) : Decidable (keysDistinct r) := by
  unfold keysDistinct; infer_instance

/-- The three accumulations performed for one live record, with its parsed and
rounded amount. -/
def recUpdate (g : Graph) (r : LiveRecord) : Graph :=
  addEdge
    (addEdge (addEdge g allLabel r.account (recAmount r))
      r.account (normalizeEnv r.account r.envTag) (recAmount r))
    (normalizeEnv r.account r.envTag) r.service (recAmount r)

/-- One line of readData (main.go:128-143): whitespace tokens, bracket-trimmed
second token parsed as the amount, child re-joined with single spaces.
`none` is the fatal-abort outcome. -/
def parseLine (line : Str) : Option (Str × ℚ × Str) :=
  match fields line with
  | p :: amtTok :: rest =>
    if rest = [] then none
    else
      match parseFloat (trimBrackets amtTok) with
      | none => none
      | some q => some (p, q, joinSpace rest)
  | _ => none

/-- readData loop body for one line: empty lines are skipped, malformed lines
abort, well-formed lines overwrite `results[parent][child]`. -/
def processLine (g : Graph) (line : Str) : Option Graph :=
  if line = [] then some g
  else
    match parseLine line with
    | none => none
    | some r => some (setEdge g r.1 r.2.2 r.2.1)

/-- readData over a list of lines. -/
def readDataLines : Graph → List Str → Option Graph
  | g, [] => some g
  | g, l :: ls =>
    match processLine g l with
    | none => none
    | some g2 => readDataLines g2 ls

/-- readData (main.go:115-145) on the whole file contents, starting from the
empty results map (the replay path excludes the live path in main). -/
def readData (input : Str) : Option Graph := readDataLines [] (splitLines input)

/-- The successfully parsed records of a replay input, in order (skipping empty
lines); `none` when some line is malformed. -/
def replayRecordsLines : List Str → Option (List (Str × ℚ × Str))
  | [] => some []
  | l :: ls =>
    if l = [] then replayRecordsLines ls
    else
      match parseLine l with
      | none => none
      | some r => (replayRecordsLines ls).map (fun rs => r :: rs)

/-- The parsed record sequence of a replay input. -/
def replayRecords (input : Str) : Option (List (Str × ℚ × Str)) :=
  replayRecordsLines (splitLines input)

/-- Apply parsed replay records in order, each overwriting its key. -/
def applyRecords : Graph → List (Str × ℚ × Str) → Graph
  | g, [] => g
  | g, r :: rs => applyRecords (setEdge g r.1 r.2.2 r.2.1) rs

/-- The amount of the last record in the list whose key is `(p, c)`. -/
def lastAmount (p c : Str) : List (Str × ℚ × Str) → Option ℚ
  | [] => none
  | r :: rs =>
    match lastAmount p c rs with
    | some v => some v
    | none => if r.1 = p ∧ r.2.2 = c then some r.2.1 else none

/-- One output line of generateText (main.go:244), without its trailing
newline character: parent, " [", the two-decimal amount, "] ", child. -/
def formatLine (p : Str) (v : ℚ) (c : Str) : Str :=
  p ++ ' ' :: '[' :: (fmt2 v ++ ']' :: ' ' :: c)

/-- generateText (main.go:233-250) as the list of emitted lines, in the model
iteration order; Go map iteration order is unspecified, so only the multiset
of lines is meaningful. -/
def generateText (g : Graph) : List Str := g.map (fun e => formatLine e.1 e.2.2 e.2.1)

/-- The character stream written to the text output file: each line followed
by a newline character. -/
def renderText (g : Graph) : Str :=
  (generateText g).foldr (fun l acc => l ++ '\n' :: acc) []

/-- Link filter of generateChart (main.go:259-265): keep exactly the edges
with cost >= threshold (the float32 narrowing of the stored value is not
modelled). -/
def sankeyLinks (g : Graph) (threshold : ℚ) : List (Str × Str × ℚ) :=
  g.filter (fun e => threshold ≤ e.2.2)

/-- hasNode (main.go:309-316). -/
def hasNode (name : Str) : List Str → Bool
  | [] => false
  | n :: ns => if n = name then true else hasNode name ns

/-- Node-collection loop of generateChart (main.go:267-278): for each link in
order add its source, then its target, unless already present. -/
def addLinkNodes : List Str → List (Str × Str × ℚ) → List Str
  | nodes, [] => nodes
  | nodes, l :: ls =>
    let n1 := if hasNode l.1 nodes then nodes else nodes ++ [l.1]
    let n2 := if hasNode l.2.1 n1 then n1 else n1 ++ [l.2.1]
    addLinkNodes n2 ls

/-- The node list of the graph-view projection. -/
def sankeyNodes (g : Graph) (threshold : ℚ) : List Str :=
  addLinkNodes [] (sankeyLinks g threshold)

/-- A parent label survives the replay tokenizer: nonempty, no whitespace. -/
def tokenOK (t : Str) : Bool :=
  decide (t ≠ []) && t.all (fun ch => !isSp ch)

/-- A child label survives the replay tokenizer: nonempty and already in the
canonical single-space form that Fields-then-Join produces. -/
def childOK (c : Str) : Bool :=
  decide (c ≠ []) && decide (c = joinSpace (fields c))

/-- The amount has at most two fraction digits, so "%.2f" renders it exactly. -/
def exact2 (v : ℚ) : Bool := decide ((v * 100).den = 1)

/-- An edge whose labels and amount survive the text round trip verbatim:
well-formed labels, an amount with at most two fraction digits, and a
magnitude a float64 can hold (so re-parsing raises no range error). -/
def edgeOK (e : Str × Str × ℚ) : Bool :=
  tokenOK e.1 && childOK e.2.1 && exact2 e.2.2 && fitsFloat e.2.2

/-- A graph with round-trip-safe edges and (as the Go map guarantees) unique
keys. -/
def graphOK (g : Graph) : Bool :=
  g.all edgeOK && decide ((keys g).Nodup)

/-! Concrete inputs used by the witness and counterexample theorems. -/

/-- The label "acct1". -/
def acct1Tok : Str := ("acct1").toList

/-- The label "prod". -/
def prodTok : Str := ("prod").toList

/-- The label "EC2". -/
def ec2Tok : Str := ("EC2").toList

/-- The label "x". -/
def xTok : Str := ("x").toList

/-- The label "a". -/
def aTok : Str := ("a").toList

/-- The label "b". -/
def bTok : Str := ("b").toList

/-- A raw tag of 13 characters whose first 12 characters are not the
environment marker. -/
def oddTag : Str := ("abcdefghijkl9").toList

/-- The two example live records of the spec, both for account acct1,
tag environment$prod, category EC2, amounts 150.40 and 49.60. -/
def c1wrecs : List LiveRecord :=
  [⟨acct1Tok, ("environment$prod").toList, ec2Tok, ("150.40").toList⟩,
   ⟨acct1Tok, ("environment$prod").toList, ec2Tok, ("49.60").toList⟩]

/-- A single live record whose account, environment and category labels all
coincide ("x"), so two of its three tier updates land on the same key. -/
def c1cexRecs : List LiveRecord :=
  [⟨xTok, ("environment$x").toList, xTok, ("1").toList⟩]

/-- Replay input with two lines for the same (parent, child) key. -/
def c7input : Str := ("a [1.00] b\na [2.00] b").toList

/-- A single well-behaved live record used to witness the amended C7. -/
def c7wrecs : List LiveRecord :=
  [⟨acct1Tok, ("environment$prod").toList, ec2Tok, ("150.40").toList⟩]

/-- Replay input with two parseable lines for the same key, amounts 1 and 2.5. -/
def c6input : Str := ("a [1.00] b\na [2.50] b").toList

/-- The parsed records of c6input. -/
def c6recs : List (Str × ℚ × Str) := [(aTok, 1, bTok), (aTok, 5/2, bTok)]

/-- Replay input whose second token does not parse as a number. -/
def c9input : Str := ("acct1 [notanumber] svc").toList

/-- A well-formed two-edge graph used to witness the round trip. -/
def c5wg : Graph := [(allLabel, acct1Tok, 12), (acct1Tok, prodTok, 5)]

/-- A graph whose parent label contains a space, which the replay tokenizer
cannot reproduce. -/
def c5bad : Graph := [(("a b").toList, ("c").toList, 1)]

/-! Theorems. -/

/-- Claim C2: a live-fetch raw environment tag longer than the marker
"environment$" has the marker stripped (a tag "environment$" ++ s with s
nonempty yields s); a tag no longer than the marker (absent, hence empty, or
the bare marker itself) yields the fallback label account ++ "-unknown". -/
theorem c2_theorem (a t s : Str) :
    (s ≠ [] → normalizeEnv a (envMarker ++ s) = s) ∧
    (t.length ≤ envMarker.length → normalizeEnv a t = a ++ unknownTail) := by
  constructor
  · intro hs
    have hlen : envMarker.length < (envMarker ++ s).length := by
      have : 0 < s.length := List.length_pos.mpr hs
      simp [List.length_append]
      omega
    unfold normalizeEnv
    rw [if_pos hlen, List.drop_left]
  · intro ht
    unfold normalizeEnv
    rw [if_neg (by omega)]

/-- Witness for C2 at the concrete inputs of the spec: tag
"environment$prod" for account acct1 yields "prod", and the bare marker
yields "acct1-unknown". -/
theorem c2_witness :
    normalizeEnv acct1Tok (envMarker ++ prodTok) = prodTok ∧
    normalizeEnv acct1Tok envMarker = acct1Tok ++ unknownTail :=
  ⟨(c2_theorem acct1Tok envMarker prodTok).1 (by with_unfolding_all decide),
   (c2_theorem acct1Tok envMarker prodTok).2 (le_refl _)⟩

/-- Claim C10: the strip-or-fallback decision is by length only.  The marker
is 12 characters long; every tag longer than 12 characters has its first 12
characters dropped whatever they are, and every tag of length at most 12 gets
the account ++ "-unknown" fallback. -/
theorem c10_theorem (a t : Str) :
    envMarker.length = 12 ∧
    (12 < t.length → normalizeEnv a t = t.drop 12) ∧
    (t.length ≤ 12 → normalizeEnv a t = a ++ unknownTail) := by
  have h12 : envMarker.length = 12 := by with_unfolding_all decide
  refine ⟨h12, ?_, ?_⟩ <;> intro h <;> unfold normalizeEnv <;> rw [h12]
  · rw [if_pos h]
  · rw [if_neg (by omega)]

/-- Witness for C10: the 13-character tag "abcdefghijkl9", which does not
start with the marker, still has its first 12 characters removed. -/
theorem c10_witness :
    normalizeEnv acct1Tok oddTag = oddTag.drop 12 :=
  (c10_theorem acct1Tok oddTag).2.1 (by with_unfolding_all decide)

/-- Claim C3: the graph-view projection keeps exactly the edges whose amount
is at least the threshold: a link appears if and only if the edge is in the
Graph and its amount is >= the threshold, so an edge exactly at the threshold
is retained and one strictly below is excluded. -/
theorem c3_theorem (g : Graph) (threshold : ℚ) (p c : Str) (v : ℚ) :
    (p, c, v) ∈ sankeyLinks g threshold ↔ ((p, c, v) ∈ g ∧ threshold ≤ v) := by
  simp [sankeyLinks, List.mem_filter]

/-- hasNode decides list membership. -/
theorem hasNode_iff (n : Str) (ns : List Str) : hasNode n ns = true ↔ n ∈ ns := by
  induction ns with
  | nil => simp [hasNode]
  | cons m ms ih =>
    rw [hasNode]
    by_cases h : m = n
    · simp [h]
    · rw [if_neg h, ih]
      constructor
      · exact fun hm => List.mem_cons_of_mem _ hm
      · intro hm
        rcases List.mem_cons.mp hm with heq | hm2
        · exact absurd heq.symm h
        · exact hm2

/-- Membership in the node-collection loop: a node is collected exactly when
it was already present or is an endpoint of one of the links. -/
theorem mem_addLinkNodes (ls : List (Str × Str × ℚ)) :
    ∀ (nodes : List Str) (n : Str),
      n ∈ addLinkNodes nodes ls ↔ n ∈ nodes ∨ ∃ l ∈ ls, n = l.1 ∨ n = l.2.1 := by
  induction ls with
  | nil => simp [addLinkNodes]
  | cons l ls ih =>
    intro nodes n
    have step : ∀ (ns : List Str) (x m : Str),
        (m ∈ if hasNode x ns then ns else ns ++ [x]) ↔ m ∈ ns ∨ m = x := by
      intro ns x m
      by_cases h : hasNode x ns
      · rw [if_pos h]
        have hx : x ∈ ns := (hasNode_iff x ns).mp h
        constructor
        · exact Or.inl
        · rintro (hm | rfl)
          · exact hm
          · exact hx
      · rw [if_neg h]
        simp [List.mem_append]
    rw [addLinkNodes, ih, step, step]
    simp only [List.mem_cons]
    constructor
    · rintro ((( hm | rfl) | rfl) | ⟨l2, hl2, hend⟩)
      · exact Or.inl hm
      · exact Or.inr ⟨l, Or.inl rfl, Or.inl rfl⟩
      · exact Or.inr ⟨l, Or.inl rfl, Or.inr rfl⟩
      · exact Or.inr ⟨l2, Or.inr hl2, hend⟩
    · rintro (hm | ⟨l2, (rfl | hl2), hend⟩)
      · exact Or.inl (Or.inl (Or.inl hm))
      · rcases hend with rfl | rfl
        · exact Or.inl (Or.inl (Or.inr rfl))
        · exact Or.inl (Or.inr rfl)
      · exact Or.inr ⟨l2, hl2, hend⟩

/-- The node-collection loop never introduces a duplicate. -/
theorem nodup_addLinkNodes (ls : List (Str × Str × ℚ)) :
    ∀ nodes : List Str, nodes.Nodup → (addLinkNodes nodes ls).Nodup := by
  induction ls with
  | nil => intro nodes h; simpa [addLinkNodes] using h
  | cons l ls ih =>
    intro nodes h
    have step : ∀ (ns : List Str) (x : Str), ns.Nodup →
        (if hasNode x ns then ns else ns ++ [x]).Nodup := by
      intro ns x hns
      by_cases hx : hasNode x ns
      · rwa [if_pos hx]
      · rw [if_neg hx]
        have hxmem : x ∉ ns := fun hm => hx ((hasNode_iff x ns).mpr hm)
        simp [List.nodup_append, hns, hxmem]
    rw [addLinkNodes]
    exact ih _ (step _ _ (step _ _ h))

/-- Claim C4: the node list of the graph-view projection has no duplicate
entry, and contains a label exactly when it is the source or the target of at
least one surviving (post-threshold) link. -/
theorem c4_theorem (g : Graph) (threshold : ℚ) :
    (sankeyNodes g threshold).Nodup ∧
    ∀ n, n ∈ sankeyNodes g threshold ↔
      ∃ l ∈ sankeyLinks g threshold, n = l.1 ∨ n = l.2.1 := by
  constructor
  · exact nodup_addLinkNodes _ [] List.nodup_nil
  · intro n
    rw [sankeyNodes, mem_addLinkNodes]
    simp

/-- Every element kept by takeWhile satisfies the predicate. -/
theorem mem_takeWhile_sat (p : Char → Bool) :
    ∀ l : Str, ∀ x ∈ l.takeWhile p, p x = true := by
  intro l
  induction l with
  | nil =>
    intro x hx
    simp at hx
  | cons c t ih =>
    intro x hx
    rw [List.takeWhile_cons] at hx
    by_cases hc : p c
    · rw [if_pos hc] at hx
      rcases List.mem_cons.mp hx with rfl | hx2
      · exact hc
      · exact ih x hx2
    · rw [if_neg hc] at hx
      simp at hx

/-- Digit characters are numeric characters. -/
theorem digit_goNumChar (c : Char) (h : Char.isDigit c = true) : goNumChar c = true := by
  rw [goNumChar, Bool.or_eq_true]
  exact Or.inl h

/-- stripExpSign consumes at most one sign character. -/
theorem stripExpSign_sub (s : Str) :
    s = (stripExpSign s).2 ∨ ∃ c, (c = '-' ∨ c = '+') ∧ s = c :: (stripExpSign s).2 := by
  cases s with
  | nil =>
    left
    rfl
  | cons d r =>
    by_cases h1 : d = '-'
    · right
      refine ⟨d, Or.inl h1, ?_⟩
      rw [stripExpSign, if_pos h1]
    · by_cases h2 : d = '+'
      · right
        refine ⟨d, Or.inr h2, ?_⟩
        rw [stripExpSign, if_neg h1, if_pos h2]
      · left
        rw [stripExpSign, if_neg h1, if_neg h2]

/-- parseSign consumes at most one sign character. -/
theorem parseSign_sub (s : Str) :
    s = (parseSign s).2 ∨ ∃ c, (c = '-' ∨ c = '+') ∧ s = c :: (parseSign s).2 := by
  cases s with
  | nil =>
    left
    rfl
  | cons c r =>
    by_cases h1 : c = '-'
    · right
      refine ⟨c, Or.inl h1, ?_⟩
      rw [parseSign, if_pos h1]
    · by_cases h2 : c = '+'
      · right
        refine ⟨c, Or.inr h2, ?_⟩
        rw [parseSign, if_neg h1, if_pos h2]
      · left
        rw [parseSign, if_neg h1, if_neg h2]

/-- A list whose digit-dropWhile is empty is all digits. -/
theorem all_digits_of_dropWhile_nil (l : Str) (h : l.dropWhile Char.isDigit = []) :
    ∀ ch ∈ l, Char.isDigit ch = true := by
  intro ch hch
  have hsplit := List.takeWhile_append_dropWhile Char.isDigit l
  rw [h, List.append_nil] at hsplit
  rw [← hsplit] at hch
  exact mem_takeWhile_sat Char.isDigit l ch hch

/-- A parsed exponent suffix consists of numeric characters only. -/
theorem parseExpTail_chars (m q : ℚ) (s : Str) (hs : parseExpTail m s = some q) :
    ∀ ch ∈ s, goNumChar ch = true := by
  cases s with
  | nil =>
    intro ch hch
    simp at hch
  | cons c rest =>
    rw [parseExpTail] at hs
    by_cases hce : c = 'e' ∨ c = 'E'
    · rw [if_pos hce] at hs
      by_cases hcond : (stripExpSign rest).2.takeWhile Char.isDigit = []
          ∨ (stripExpSign rest).2.dropWhile Char.isDigit ≠ []
      · rw [if_pos hcond] at hs
        cases hs
      · rw [if_neg hcond] at hs
        push_neg at hcond
        have hall : ∀ ch ∈ (stripExpSign rest).2, Char.isDigit ch = true :=
          all_digits_of_dropWhile_nil _ hcond.2
        intro ch hch
        rcases List.mem_cons.mp hch with rfl | hch2
        · rcases hce with rfl | rfl
          · decide
          · decide
        · rcases stripExpSign_sub rest with heq | ⟨c2, hc2, heq⟩
          · rw [heq] at hch2
            exact digit_goNumChar ch (hall ch hch2)
          · rw [heq] at hch2
            rcases List.mem_cons.mp hch2 with rfl | hch3
            · rcases hc2 with rfl | rfl
              · decide
              · decide
            · exact digit_goNumChar ch (hall ch hch3)
    · rw [if_neg hce] at hs
      cases hs

/-- parseFloatNum in the fraction branch. -/
theorem parseFloatNum_eq_dot (s s3 : Str)
    (h : (parseSign s).2.dropWhile Char.isDigit = '.' :: s3) :
    parseFloatNum s =
      if (parseSign s).2.takeWhile Char.isDigit = [] ∧ s3.takeWhile Char.isDigit = [] then none
      else parseExpTail ((parseSign s).1 *
        ((digitsToNat ((parseSign s).2.takeWhile Char.isDigit) : ℚ) +
          (digitsToNat (s3.takeWhile Char.isDigit) : ℚ) / 10 ^ (s3.takeWhile Char.isDigit).length))
        (s3.dropWhile Char.isDigit) := by
  rw [parseFloatNum, h]
  rfl

/-- parseFloatNum in the fraction-free branch. -/
theorem parseFloatNum_eq_nodot (s : Str)
    (h : ∀ s3 : Str, (parseSign s).2.dropWhile Char.isDigit ≠ '.' :: s3) :
    parseFloatNum s =
      if (parseSign s).2.takeWhile Char.isDigit = [] then none
      else parseExpTail
        ((parseSign s).1 * (digitsToNat ((parseSign s).2.takeWhile Char.isDigit) : ℚ))
        ((parseSign s).2.dropWhile Char.isDigit) := by
  rw [parseFloatNum]
  split
  · exact absurd (by assumption) (h _)
  · rfl

/-- A string the syntactic parser accepts consists of numeric characters
only: this is the (Go-sound) core of the ParseFloat acceptance test, since
every string strconv.ParseFloat accepts — decimal, hex, underscored or a
special form — also consists of such characters only. -/
theorem parseFloatNum_chars (s : Str) (q : ℚ) (hs : parseFloatNum s = some q) :
    ∀ ch ∈ s, goNumChar ch = true := by
  have hmain : ∀ ch ∈ (parseSign s).2.dropWhile Char.isDigit, goNumChar ch = true := by
    rcases hd2 : (parseSign s).2.dropWhile Char.isDigit with _ | ⟨c3, s3⟩
    · intro ch hch
      simp at hch
    · by_cases hc3 : c3 = '.'
      · subst hc3
        rw [parseFloatNum_eq_dot s s3 hd2] at hs
        by_cases hcnd : (parseSign s).2.takeWhile Char.isDigit = []
            ∧ s3.takeWhile Char.isDigit = []
        · rw [if_pos hcnd] at hs
          cases hs
        · rw [if_neg hcnd] at hs
          intro ch hch
          rcases List.mem_cons.mp hch with rfl | hch2
          · decide
          · have hsplit := List.takeWhile_append_dropWhile Char.isDigit s3
            rw [← hsplit] at hch2
            rcases List.mem_append.mp hch2 with h4 | h4
            · exact digit_goNumChar ch (mem_takeWhile_sat Char.isDigit s3 ch h4)
            · exact parseExpTail_chars _ q _ hs ch h4
      · rw [parseFloatNum_eq_nodot s ?hne] at hs
        case hne =>
          intro s4 hcontra
          rw [hd2] at hcontra
          injection hcontra with hh1 hh2
          exact hc3 hh1
        by_cases hip : (parseSign s).2.takeWhile Char.isDigit = []
        · rw [if_pos hip] at hs
          cases hs
        · rw [if_neg hip] at hs
          rw [hd2] at hs
          intro ch hch
          exact parseExpTail_chars _ q _ hs ch hch
  intro ch hch
  have hins1 : ∀ ch2 ∈ (parseSign s).2, goNumChar ch2 = true := by
    intro ch2 hch2
    have hsplit := List.takeWhile_append_dropWhile Char.isDigit (parseSign s).2
    rw [← hsplit] at hch2
    rcases List.mem_append.mp hch2 with h4 | h4
    · exact digit_goNumChar ch2 (mem_takeWhile_sat Char.isDigit _ ch2 h4)
    · exact hmain ch2 h4
  rcases parseSign_sub s with heq | ⟨c0, hc0, heq⟩
  · rw [heq] at hch
    exact hins1 ch hch
  · rw [heq] at hch
    rcases List.mem_cons.mp hch with rfl | hch2
    · rcases hc0 with rfl | rfl
      · decide
      · decide
    · exact hins1 ch hch2

/-- A token containing a character that cannot occur in any accepted numeric
form fails to parse. -/
theorem parseFloat_none_of_badChar (s : Str) (hbad : ∃ ch ∈ s, goNumChar ch = false) :
    parseFloat s = none := by
  obtain ⟨ch, hch, hb⟩ := hbad
  cases hq : parseFloatNum s with
  | none => rw [parseFloat, hq]
  | some q =>
    rw [parseFloatNum_chars s q hq ch hch] at hb
    cases hb

/-- A line with fewer than three tokens, or whose bracket-trimmed second
token contains a character no ParseFloat-accepted number can contain, makes
parseLine abort. -/
theorem parseLine_none_of_bad (line : Str)
    (hbad : (fields line).length < 3 ∨
      ∃ ch ∈ trimBrackets ((fields line).getD 1 []), goNumChar ch = false) :
    parseLine line = none := by
  unfold parseLine
  cases hfs : fields line with
  | nil => rfl
  | cons p rest1 =>
    cases rest1 with
    | nil => rfl
    | cons a rest =>
      cases hrest : rest with
      | nil => simp
      | cons c0 rest2 =>
        have hp : parseFloat (trimBrackets a) = none := by
          rcases hbad with hlen | hpf
          · rw [hfs, hrest] at hlen
            simp at hlen
            omega
          · rw [hfs] at hpf
            exact parseFloat_none_of_badChar (trimBrackets a) (by simpa using hpf)
        simp [hp]

/-- A malformed line aborts processLine whatever the current graph is. -/
theorem processLine_none_of_bad (line : Str) (hne : line ≠ [])
    (hbad : (fields line).length < 3 ∨
      ∃ ch ∈ trimBrackets ((fields line).getD 1 []), goNumChar ch = false) :
    ∀ g : Graph, processLine g line = none := by
  intro g
  rw [processLine, if_neg hne, parseLine_none_of_bad line hbad]

/-- If any line of the input aborts unconditionally, the whole readData loop
aborts. -/
theorem readDataLines_none (l : Str) (hl : ∀ g, processLine g l = none) :
    ∀ (ls : List Str) (g : Graph), l ∈ ls → readDataLines g ls = none := by
  intro ls
  induction ls with
  | nil =>
    intro g h
    simp at h
  | cons l2 ls ih =>
    intro g hmem
    rw [readDataLines]
    rcases List.mem_cons.mp hmem with rfl | hm
    · rw [hl g]
    · cases hpl : processLine g l2
      · rfl
      · exact ih _ hm

/-- Claim C9: a replay input containing a non-empty line with fewer than three
whitespace tokens, or one whose bracket-trimmed second token contains a
character that can occur in no string strconv.ParseFloat accepts (so the token
certainly fails to parse as a decimal number), makes the whole run abort:
readData produces no graph (hence the pipeline writes no output file);
malformed lines are never skipped. -/
theorem c9_theorem (input line : Str) (hmem : line ∈ splitLines input)
    (hne : line ≠ [])
    (hbad : (fields line).length < 3 ∨
      ∃ ch ∈ trimBrackets ((fields line).getD 1 []), goNumChar ch = false) :
    readData input = none := by
  rw [readData]
  exact readDataLines_none line (processLine_none_of_bad line hne hbad) _ [] hmem

/-- Witness for C9 at the spec example "acct1 [notanumber] svc". -/
theorem c9_witness : readData c9input = none :=
  c9_theorem c9input c9input (by with_unfolding_all decide)
    (by with_unfolding_all decide) (Or.inr (by with_unfolding_all decide))

/-- Looking up after a setEdge: the written key now holds exactly the written
value, every other key is untouched. -/
theorem lookupEdge_setEdge (ps cs p c : Str) (x : ℚ) :
    ∀ g : Graph, lookupEdge (setEdge g ps cs x) p c =
      if ps = p ∧ cs = c then some x else lookupEdge g p c := by
  intro g
  induction g with
  | nil => simp only [setEdge, lookupEdge]
  | cons e g ih =>
    obtain ⟨a, b, v⟩ := e
    simp only [setEdge]
    by_cases he : a = ps ∧ b = cs
    · rw [if_pos he]
      obtain ⟨rfl, rfl⟩ := he
      simp only [lookupEdge]
      split_ifs with hC
      · rfl
      · rfl
    · rw [if_neg he]
      simp only [lookupEdge, ih]
      split_ifs with h1 h2 <;> try rfl
      exact (he ⟨h1.1.trans h2.1.symm, h1.2.trans h2.2.symm⟩).elim

/-- Looking up after replaying a record list: the last record written to the
key wins, and a key never written keeps its prior value. -/
theorem lookupEdge_applyRecords (p c : Str) :
    ∀ (rs : List (Str × ℚ × Str)) (g : Graph),
      lookupEdge (applyRecords g rs) p c =
        match lastAmount p c rs with
        | some v => some v
        | none => lookupEdge g p c := by
  intro rs
  induction rs with
  | nil => intro g; rfl
  | cons r rs ih =>
    intro g
    rw [applyRecords, ih, lastAmount]
    cases hl : lastAmount p c rs with
    | some v => rfl
    | none =>
      rw [lookupEdge_setEdge]
      split_ifs with h
      · rfl
      · rfl

/-- readData agrees with first parsing all lines and then applying the parsed
records in order. -/
theorem readData_eq_applyRecords :
    ∀ (ls : List Str) (rs : List (Str × ℚ × Str)) (g : Graph),
      replayRecordsLines ls = some rs → readDataLines g ls = some (applyRecords g rs) := by
  intro ls
  induction ls with
  | nil =>
    intro rs g h
    rw [replayRecordsLines] at h
    cases h
    rfl
  | cons l ls ih =>
    intro rs g h
    rw [replayRecordsLines] at h
    by_cases hl : l = []
    · rw [if_pos hl] at h
      rw [readDataLines, hl, processLine, if_pos rfl]
      exact ih rs g h
    · rw [if_neg hl] at h
      cases hpl : parseLine l with
      | none =>
        rw [hpl] at h
        exact absurd h (by simp)
      | some r =>
        rw [hpl] at h
        obtain ⟨rs2, hrs2, rfl⟩ := Option.map_eq_some'.mp h
        rw [readDataLines, processLine, if_neg hl, hpl]
        simpa [applyRecords] using ih rs2 (setEdge g r.1 r.2.2 r.2.1) hrs2

/-- Claim C6: on the replay path each parsed line (parent, amount, child) sets
the Graph entry for (parent, child) to that amount verbatim, overwriting any
earlier line with the same key: after replay the edge holds exactly the amount
of the last such line (and a key never written stays absent). -/
theorem c6_theorem (input : Str) (rs : List (Str × ℚ × Str))
    (h : replayRecords input = some rs) (p c : Str) :
    readData input = some (applyRecords [] rs) ∧
    lookupEdge (applyRecords [] rs) p c = lastAmount p c rs := by
  constructor
  · exact readData_eq_applyRecords _ rs [] h
  · rw [lookupEdge_applyRecords]
    cases hl : lastAmount p c rs with
    | some v => rfl
    | none => rfl

/-- Witness for C6: two lines for the key (a, b) with amounts 1 and 2.5; the
final edge equals the last amount, 2.5. -/
theorem c6_witness :
    readData c6input = some (applyRecords [] c6recs) ∧
    lookupEdge (applyRecords [] c6recs) aTok bTok = lastAmount aTok bTok c6recs :=
  c6_theorem c6input c6recs (by with_unfolding_all decide) aTok bTok

/-- Accumulating into one key adds the amount there and changes nothing else
(an absent key is read as 0). -/
theorem edgeVal_addEdge (ps cs p c : Str) (x : ℚ) :
    ∀ g : Graph, edgeVal (addEdge g ps cs x) p c =
      edgeVal g p c + if ps = p ∧ cs = c then x else 0 := by
  intro g
  induction g with
  | nil =>
    simp only [addEdge, edgeVal, lookupEdge]
    split_ifs with h
    · simp
    · simp
  | cons e g ih =>
    obtain ⟨a, b, v⟩ := e
    simp only [addEdge]
    by_cases he : a = ps ∧ b = cs
    · rw [if_pos he]
      obtain ⟨rfl, rfl⟩ := he
      simp only [edgeVal, lookupEdge]
      split_ifs with hC
      · simp
      · simp
    · rw [if_neg he]
      simp only [edgeVal, lookupEdge] at ih ⊢
      by_cases hC : a = p ∧ b = c
      · rw [if_pos hC, if_pos hC]
        have : ¬(ps = p ∧ cs = c) := fun hpc =>
          he ⟨hC.1.trans hpc.1.symm, hC.2.trans hpc.2.symm⟩
        rw [if_neg this]
        simp
      · rw [if_neg hC, if_neg hC]
        exact ih

/-- The three accumulations of one live record change a given key by its hit
count times the parsed-and-rounded amount. -/
theorem edgeVal_recUpdate (g : Graph) (r : LiveRecord) (p c : Str) :
    edgeVal (recUpdate g r) p c = edgeVal g p c + hitCount r p c * recAmount r := by
  rw [recUpdate, edgeVal_addEdge, edgeVal_addEdge, edgeVal_addEdge, hitCount]
  split_ifs <;> ring

/-- A live record whose amount parses performs exactly its three
accumulations. -/
theorem prepareRecord_eq (g : Graph) (r : LiveRecord) (q : ℚ)
    (h : parseFloat r.amount = some q) :
    prepareRecord g r = some (recUpdate g r) := by
  rw [prepareRecord, h, recUpdate, recAmount, h]
  rfl

/-- When every amount parses, prepareResults is the fold of the per-record
update. -/
theorem prepareResults_eq (rs : List LiveRecord) :
    ∀ g : Graph, (∀ r ∈ rs, (parseFloat r.amount).isSome = true) →
      prepareResults g rs = some (rs.foldl recUpdate g) := by
  induction rs with
  | nil =>
    intro g h
    rfl
  | cons r rs ih =>
    intro g h
    obtain ⟨q, hq⟩ := Option.isSome_iff_exists.mp (h r (List.mem_cons_self r rs))
    rw [prepareResults, prepareRecord_eq g r q hq, List.foldl_cons]
    exact ih _ (fun r2 hr2 => h r2 (List.mem_cons_of_mem _ hr2))

/-- Folding the per-record updates accumulates, per key, the hit-weighted sum
of the rounded amounts. -/
theorem edgeVal_foldl (p c : Str) :
    ∀ (rs : List LiveRecord) (g : Graph),
      edgeVal (rs.foldl recUpdate g) p c =
        edgeVal g p c + (rs.map (fun r => hitCount r p c * recAmount r)).sum := by
  intro rs
  induction rs with
  | nil =>
    intro g
    simp
  | cons r rs ih =>
    intro g
    rw [List.foldl_cons, ih, edgeVal_recUpdate, List.map_cons, List.sum_cons]
    ring

/-- Counterexample to C7 as stated: replay input with lines "a [1.00] b" and
"a [2.00] b" stores 2 at (a, b) — the last-write value — while the sum of the
amounts of all records observed for that pair is 1 + 2 = 3. -/
theorem c7_counterexample :
    (readData c7input).map (fun g => edgeVal g aTok bTok) = some 2 ∧
      (2 : ℚ) ≠ 1 + 2 := by
  constructor
  · with_unfolding_all decide
  · with_unfolding_all decide

/-- Claim C7 amended: the sum-of-observations invariant holds on the
live-fetch ingestion path (the replay path overwrites instead): for records
whose amounts parse, the stored amount at (p, c) is the sum over all records
of their rounded amount counted once per tier-update hitting (p, c). -/
theorem c7_amended (rs : List LiveRecord)
    (h : ∀ r ∈ rs, (parseFloat r.amount).isSome = true) (p c : Str) :
    (prepareResults [] rs).map (fun G => edgeVal G p c) =
      some ((rs.map (fun r => hitCount r p c * recAmount r)).sum) := by
  rw [prepareResults_eq rs [] h]
  rw [Option.map_some', edgeVal_foldl]
  simp [edgeVal, lookupEdge]

/-- Witness for the amended C7 with one record of amount 150.40 for account
acct1, tag environment$prod, category EC2. -/
theorem c7_witness :
    (prepareResults [] c7wrecs).map (fun G => edgeVal G prodTok ec2Tok) =
      some ((c7wrecs.map (fun r => hitCount r prodTok ec2Tok * recAmount r)).sum) :=
  c7_amended c7wrecs (by with_unfolding_all decide) prodTok ec2Tok

/-- Under pairwise-distinct keys, the hit count is the indicator of sharing
the key. -/
theorem hitCount_eq_indicator (r : LiveRecord) (hd : keysDistinct r) (p c : Str) :
    hitCount r p c = if sharesKey r p c then 1 else 0 := by
  obtain ⟨hd1, hd2, hd3⟩ := hd
  have hAB : ¬((allLabel = p ∧ r.account = c)
      ∧ (r.account = p ∧ normalizeEnv r.account r.envTag = c)) := by
    rintro ⟨⟨e1, e2⟩, e3, e4⟩
    exact hd1 (Prod.ext_iff.mpr ⟨e1.trans e3.symm, e2.trans e4.symm⟩)
  have hAC : ¬((allLabel = p ∧ r.account = c)
      ∧ (normalizeEnv r.account r.envTag = p ∧ r.service = c)) := by
    rintro ⟨⟨e1, e2⟩, e3, e4⟩
    exact hd2 (Prod.ext_iff.mpr ⟨e1.trans e3.symm, e2.trans e4.symm⟩)
  have hBC : ¬((r.account = p ∧ normalizeEnv r.account r.envTag = c)
      ∧ (normalizeEnv r.account r.envTag = p ∧ r.service = c)) := by
    rintro ⟨⟨e1, e2⟩, e3, e4⟩
    exact hd3 (Prod.ext_iff.mpr ⟨e1.trans e3.symm, e2.trans e4.symm⟩)
  rw [hitCount]
  by_cases hA : allLabel = p ∧ r.account = c
  · have hB := fun hB => hAB ⟨hA, hB⟩
    have hC := fun hC => hAC ⟨hA, hC⟩
    rw [if_pos hA, if_neg hB, if_neg hC,
      if_pos (show sharesKey r p c = true from decide_eq_true (Or.inl hA))]
    norm_num
  · by_cases hB : r.account = p ∧ normalizeEnv r.account r.envTag = c
    · have hC := fun hC => hBC ⟨hB, hC⟩
      rw [if_neg hA, if_pos hB, if_neg hC,
        if_pos (show sharesKey r p c = true from decide_eq_true (Or.inr (Or.inl hB)))]
      norm_num
    · by_cases hC : normalizeEnv r.account r.envTag = p ∧ r.service = c
      · rw [if_neg hA, if_neg hB, if_pos hC,
          if_pos (show sharesKey r p c = true from decide_eq_true (Or.inr (Or.inr hC)))]
        norm_num
      · rw [if_neg hA, if_neg hB, if_neg hC,
          if_neg (show ¬sharesKey r p c = true by
            intro hs
            rcases of_decide_eq_true hs with h | h | h
            · exact hA h
            · exact hB h
            · exact hC h)]
        norm_num

/-- Hit-weighted sums collapse to plain sums over the sharing records when
every record has pairwise-distinct keys. -/
theorem sum_indicator_filter (p c : Str) :
    ∀ rs : List LiveRecord, (∀ r ∈ rs, keysDistinct r) →
      (rs.map (fun r => hitCount r p c * recAmount r)).sum =
        ((rs.filter (fun r => sharesKey r p c)).map recAmount).sum := by
  intro rs
  induction rs with
  | nil =>
    intro h
    simp
  | cons r rs ih =>
    intro h
    rw [List.map_cons, List.sum_cons,
      hitCount_eq_indicator r (h r (List.mem_cons_self r rs)) p c,
      ih (fun r2 hr2 => h r2 (List.mem_cons_of_mem _ hr2))]
    by_cases hs : sharesKey r p c
    · simp only [List.filter_cons, hs, if_true, List.map_cons, List.sum_cons]
      ring
    · rw [List.filter_cons, if_neg hs, if_neg hs]
      ring

/-- Counterexample to C1 as stated: the single record with account "x", tag
"environment$x" (environment "x") and category "x", amount 1, updates the key
(x, x) through two different tiers, so the stored edge is 2 while the sum of
the rounded amounts of the records sharing that key is 1. -/
theorem c1_counterexample :
    (prepareResults [] c1cexRecs).map (fun G => edgeVal G xTok xTok) = some 2 ∧
    ((c1cexRecs.filter (fun r => sharesKey r xTok xTok)).map recAmount).sum = 1 ∧
    (2 : ℚ) ≠ 1 := by
  refine ⟨?_, ?_, ?_⟩ <;> with_unfolding_all decide

/-- Claim C1 amended: each live record adds its rounded amount to its three
keys (absent keys read as 0); hence, provided every record's three updated
keys are pairwise distinct, the edge stored at any key equals the sum of the
rounded amounts of the records sharing that key. -/
theorem c1_amended (rs : List LiveRecord)
    (hp : ∀ r ∈ rs, (parseFloat r.amount).isSome = true)
    (hd : ∀ r ∈ rs, keysDistinct r) (p c : Str) :
    (prepareResults [] rs).map (fun G => edgeVal G p c) =
      some (((rs.filter (fun r => sharesKey r p c)).map recAmount).sum) := by
  rw [prepareResults_eq rs [] hp, Option.map_some', edgeVal_foldl,
    sum_indicator_filter p c rs hd]
  simp [edgeVal, lookupEdge]

/-- Witness for the amended C1 at the spec example: two records for account
acct1, tag environment$prod, category EC2, amounts 150.40 and 49.60. -/
theorem c1_witness :
    (prepareResults [] c1wrecs).map (fun G => edgeVal G prodTok ec2Tok) =
      some (((c1wrecs.filter (fun r => sharesKey r prodTok ec2Tok)).map recAmount).sum) :=
  c1_amended c1wrecs (by with_unfolding_all decide) (by with_unfolding_all decide)
    prodTok ec2Tok

/-- Digit characters of digits below ten are among the ten digit characters. -/
theorem digitChar_mem : ∀ d : ℕ, d < 10 → Nat.digitChar d ∈ digitChars := by decide

/-- The character value of a digit character recovers the digit. -/
theorem digitChar_val : ∀ d : ℕ, d < 10 → (Nat.digitChar d).toNat - 48 = d := by decide

/-- The fuelled digit list agrees with Nat.digits base 10 whenever the fuel
dominates the number. -/
theorem natDigitsRev_eq : ∀ (fuel n : ℕ), n ≤ fuel → natDigitsRev fuel n = Nat.digits 10 n := by
  intro fuel
  induction fuel with
  | zero =>
    intro n hn
    have : n = 0 := by omega
    subst this
    simp [natDigitsRev]
  | succ f ih =>
    intro n hn
    cases n with
    | zero => simp [natDigitsRev]
    | succ k =>
      rw [natDigitsRev]
      have hdiv : (k + 1) / 10 ≤ f := by
        have := Nat.div_lt_self (Nat.succ_pos k) (by norm_num : 1 < 10)
        omega
      rw [ih ((k + 1) / 10) hdiv, Nat.digits_def' (by norm_num : 1 < 10) (Nat.succ_pos k)]

/-- All characters printed for a natural number are digit characters. -/
theorem mem_natChars (n : ℕ) : ∀ ch ∈ natChars n, ch ∈ digitChars := by
  intro ch hch
  rw [natChars] at hch
  by_cases h : n = 0
  · rw [if_pos h] at hch
    simp at hch
    subst hch
    decide
  · rw [if_neg h, natDigitsRev_eq n n le_rfl] at hch
    rw [List.mem_reverse, List.mem_map] at hch
    obtain ⟨d, hd, rfl⟩ := hch
    exact digitChar_mem d (Nat.digits_lt_base (by norm_num) hd)

/-- The printed form of a natural number is never empty. -/
theorem natChars_ne_nil (n : ℕ) : natChars n ≠ [] := by
  rw [natChars]
  by_cases h : n = 0
  · rw [if_pos h]
    simp
  · rw [if_neg h]
    cases n with
    | zero => exact absurd rfl h
    | succ k =>
      rw [natDigitsRev]
      simp

/-- Folding most-significant-first digit accumulation over a reversed digit
list is Nat.ofDigits. -/
theorem foldr_ofDigits (ds : List ℕ) :
    ds.foldr (fun d r => 10 * r + d) 0 = Nat.ofDigits 10 ds := by
  induction ds with
  | nil => simp [Nat.ofDigits_nil]
  | cons d ds ih =>
    rw [List.foldr_cons, ih, Nat.ofDigits_cons]
    omega

/-- Reading back the printed digits of a natural number recovers it. -/
theorem digitsToNat_natChars (n : ℕ) : digitsToNat (natChars n) = n := by
  by_cases h : n = 0
  · subst h
    rfl
  · rw [natChars, if_neg h, natDigitsRev_eq n n le_rfl, digitsToNat, List.foldl_reverse,
      List.foldr_map]
    have hcong : ∀ ds : List ℕ, (∀ d ∈ ds, d < 10) →
        ds.foldr (fun d y => 10 * y + ((Nat.digitChar d).toNat - 48)) 0 =
          ds.foldr (fun d r => 10 * r + d) 0 := by
      intro ds hds
      induction ds with
      | nil => rfl
      | cons d ds ih =>
        rw [List.foldr_cons, List.foldr_cons,
          ih (fun d2 hd2 => hds d2 (List.mem_cons_of_mem _ hd2)),
          digitChar_val d (hds d (List.mem_cons_self d ds))]
    rw [hcong _ (fun d hd => Nat.digits_lt_base (by norm_num) hd), foldr_ofDigits]
    exact Nat.ofDigits_digits 10 n

/-- Claim C8: the text projection emits exactly one line per Graph edge —
generateText takes no threshold and the Graph is never pruned — in the format
parent ++ " [" ++ amount ++ "] " ++ child, and every rendered amount ends in a
decimal point followed by exactly two digit characters (the only decimal
point of the amount); only the multiset of lines is meaningful. -/
theorem c8_theorem (g : Graph) :
    (generateText g).length = g.length ∧
    (∀ line, line ∈ generateText g ↔ ∃ e ∈ g, line = formatLine e.1 e.2.2 e.2.1) ∧
    (∀ v : ℚ, ∃ s d1 d2, fmt2 v = s ++ ['.', d1, d2] ∧
      d1 ∈ digitChars ∧ d2 ∈ digitChars ∧ '.' ∉ s) := by
  refine ⟨by simp [generateText], ?_, ?_⟩
  · intro line
    simp [generateText, List.mem_map, eq_comm]
  · intro v
    refine ⟨(if v.num < 0 then ['-'] else []) ++
        natChars ((roundHalfEven ((if v.num < 0 then -v else v) * 100)).toNat / 100),
      Nat.digitChar ((roundHalfEven ((if v.num < 0 then -v else v) * 100)).toNat / 10 % 10),
      Nat.digitChar ((roundHalfEven ((if v.num < 0 then -v else v) * 100)).toNat % 10),
      ?_, ?_, ?_, ?_⟩
    · rw [fmt2]
    · exact digitChar_mem _ (Nat.mod_lt _ (by norm_num))
    · exact digitChar_mem _ (Nat.mod_lt _ (by norm_num))
    · intro hch
      rcases List.mem_append.mp hch with h | h
      · revert h
        split_ifs <;> simp
      · exact absurd (mem_natChars _ _ h) (by decide)

/-- Scanning a whitespace-free chunk just accumulates it. -/
theorem fieldsAux_chunk (tok : Str) (htok : ∀ ch ∈ tok, isSp ch = false) :
    ∀ acc rest : Str, fieldsAux acc (tok ++ rest) = fieldsAux (tok.reverse ++ acc) rest := by
  induction tok with
  | nil =>
    intro acc rest
    simp
  | cons ch t ih =>
    intro acc rest
    have hch : isSp ch = false := htok ch (List.mem_cons_self ch t)
    rw [List.cons_append, fieldsAux, hch]
    simp only [Bool.false_eq_true, if_false]
    rw [ih (fun c2 hc2 => htok c2 (List.mem_cons_of_mem _ hc2)) (ch :: acc) rest]
    simp [List.append_assoc]

/-- Fields of a nonempty whitespace-free token followed by a space: the token
comes off whole. -/
theorem fields_token_cons (tok rest : Str) (hne : tok ≠ [])
    (htok : ∀ ch ∈ tok, isSp ch = false) :
    fields (tok ++ ' ' :: rest) = tok :: fields rest := by
  rw [fields, fieldsAux_chunk tok htok [] (' ' :: rest), List.append_nil, fieldsAux]
  rw [if_pos (by decide : isSp ' ' = true)]
  rw [if_neg (by simpa using hne)]
  rw [List.reverse_reverse]
  rfl

/-- Every token produced by the tokenizer is nonempty and whitespace-free. -/
theorem fieldsAux_tokens : ∀ s acc : Str, (∀ ch ∈ acc, isSp ch = false) →
    ∀ t ∈ fieldsAux acc s, t ≠ [] ∧ ∀ ch ∈ t, isSp ch = false := by
  intro s
  induction s with
  | nil =>
    intro acc hacc t ht
    rw [fieldsAux] at ht
    by_cases h : acc = []
    · rw [if_pos h] at ht
      simp at ht
    · rw [if_neg h] at ht
      simp at ht
      subst ht
      refine ⟨by simpa using h, ?_⟩
      intro ch hch
      exact hacc ch (by simpa using hch)
  | cons ch cs ih =>
    intro acc hacc t ht
    rw [fieldsAux] at ht
    by_cases hsp : isSp ch = true
    · rw [if_pos hsp] at ht
      by_cases h : acc = []
      · rw [if_pos h] at ht
        exact ih [] (by simp) t ht
      · rw [if_neg h] at ht
        rcases List.mem_cons.mp ht with rfl | ht2
        · refine ⟨by simpa using h, ?_⟩
          intro c2 hc2
          exact hacc c2 (by simpa using hc2)
        · exact ih [] (by simp) t ht2
    · rw [if_neg hsp] at ht
      refine ih (ch :: acc) ?_ t ht
      intro c2 hc2
      rcases List.mem_cons.mp hc2 with rfl | h2
      · simpa using hsp
      · exact hacc c2 h2

/-- Tokens of fields are nonempty and whitespace-free. -/
theorem fields_tokens (s : Str) : ∀ t ∈ fields s, t ≠ [] ∧ ∀ ch ∈ t, isSp ch = false :=
  fieldsAux_tokens s [] (by simp)

/-- joinSpace of at least two tokens starts with the first token and a space. -/
theorem joinSpace_cons_cons (t t2 : Str) (ts : List Str) :
    joinSpace (t :: t2 :: ts) = t ++ ' ' :: joinSpace (t2 :: ts) := rfl

/-- Fields of a single nonempty whitespace-free token. -/
theorem fields_single (tok : Str) (hne : tok ≠ [])
    (hn : ∀ ch ∈ tok, isSp ch = false) : fields tok = [tok] := by
  have h := fieldsAux_chunk tok hn [] []
  rw [List.append_nil, List.append_nil] at h
  rw [fields, h, fieldsAux, if_neg (by simpa using hne), List.reverse_reverse]

/-- Fields applied to a canonical single-space join recovers the tokens. -/
theorem fields_joinSpace : ∀ toks : List Str,
    (∀ t ∈ toks, t ≠ [] ∧ ∀ ch ∈ t, isSp ch = false) →
    fields (joinSpace toks) = toks := by
  intro toks
  induction toks with
  | nil => intro h; rfl
  | cons t ts ih =>
    intro h
    obtain ⟨hne, hn⟩ := h t (List.mem_cons_self t ts)
    cases ts with
    | nil => exact fields_single t hne hn
    | cons t2 ts2 =>
      rw [joinSpace_cons_cons, fields_token_cons t _ hne hn,
        ih (fun t3 ht3 => h t3 (List.mem_cons_of_mem _ ht3))]

/-- Every character of a single-space join is a space or a token character. -/
theorem mem_joinSpace : ∀ (toks : List Str) (ch : Char), ch ∈ joinSpace toks →
    ch = ' ' ∨ ∃ t ∈ toks, ch ∈ t := by
  intro toks
  induction toks with
  | nil =>
    intro ch h
    simp [joinSpace] at h
  | cons t ts ih =>
    intro ch h
    cases ts with
    | nil =>
      right
      exact ⟨t, by simp, by simpa [joinSpace] using h⟩
    | cons t2 ts2 =>
      rw [joinSpace_cons_cons] at h
      rcases List.mem_append.mp h with h1 | h2
      · right
        exact ⟨t, by simp, h1⟩
      · rcases List.mem_cons.mp h2 with rfl | h3
        · left
          rfl
        · rcases ih ch h3 with h4 | ⟨t3, ht3, hc⟩
          · left
            exact h4
          · right
            exact ⟨t3, List.mem_cons_of_mem _ ht3, hc⟩

/-- Splitting on the newline after a newline-free chunk. -/
theorem splitLines_append (l : Str) (hl : '\n' ∉ l) :
    ∀ r, splitLines (l ++ '\n' :: r) = l :: splitLines r := by
  induction l with
  | nil =>
    intro r
    rw [List.nil_append, splitLines, if_pos rfl]
  | cons ch l ih =>
    intro r
    have hch : ch ≠ '\n' := fun h => hl (h ▸ List.mem_cons_self ch l)
    rw [List.cons_append, splitLines, if_neg hch,
      ih (fun h => hl (List.mem_cons_of_mem _ h)) r]

/-- Splitting the rendered file recovers the lines plus one trailing empty
line (Go strings.Split yields "" after a trailing newline). -/
theorem splitLines_render : ∀ ls : List Str, (∀ l ∈ ls, '\n' ∉ l) →
    splitLines (ls.foldr (fun l acc => l ++ '\n' :: acc) []) = ls ++ [[]] := by
  intro ls
  induction ls with
  | nil =>
    intro h
    rfl
  | cons l ls ih =>
    intro h
    rw [List.foldr_cons, splitLines_append l (h l (List.mem_cons_self l ls)),
      ih (fun l2 hl2 => h l2 (List.mem_cons_of_mem _ hl2))]
    rfl

/-- Dropping brackets from a bracket-free list changes nothing. -/
theorem dropWhile_no_bracket : ∀ l : Str, (∀ ch ∈ l, isBr ch = false) →
    l.dropWhile isBr = l := by
  intro l hl
  cases l with
  | nil => rfl
  | cons c t =>
    rw [List.dropWhile_cons, hl c (List.mem_cons_self c t)]
    simp

/-- Trimming the brackets off a bracket-wrapped bracket-free payload. -/
theorem trimBrackets_wrap (s : Str) (hs : ∀ ch ∈ s, isBr ch = false) :
    trimBrackets ('[' :: s ++ [']']) = s := by
  cases s with
  | nil => rfl
  | cons h0 t =>
    have hh0 : isBr h0 = false := hs h0 (List.mem_cons_self h0 t)
    have hd1 : List.dropWhile isBr ('[' :: (h0 :: t) ++ [']']) = h0 :: (t ++ [']']) := by
      rw [List.cons_append, List.dropWhile_cons_of_pos (by decide), List.cons_append,
        List.dropWhile_cons_of_neg (by simp [hh0])]
    have hrev : (h0 :: (t ++ [']'])).reverse = ']' :: (t.reverse ++ [h0]) := by
      simp
    have hall : ∀ ch ∈ t.reverse ++ [h0], isBr ch = false := by
      intro ch hch
      rcases List.mem_append.mp hch with h | h
      · exact hs ch (List.mem_cons_of_mem _ (by simpa using h))
      · simp at h
        subst h
        exact hh0
    rw [trimBrackets, hd1, hrev, List.dropWhile_cons_of_pos (by decide),
      dropWhile_no_bracket (t.reverse ++ [h0]) hall]
    simp

/-- The rendered amount, with the sign and the rounded magnitude spelled out. -/
theorem fmt2_eq (v : ℚ) :
    fmt2 v = (if v.num < 0 then ['-'] else []) ++
      (natChars ((roundHalfEven ((if v.num < 0 then -v else v) * 100)).toNat / 100) ++
        '.' :: [Nat.digitChar ((roundHalfEven ((if v.num < 0 then -v else v) * 100)).toNat / 10 % 10),
          Nat.digitChar ((roundHalfEven ((if v.num < 0 then -v else v) * 100)).toNat % 10)]) := by
  rw [fmt2]
  simp [List.append_assoc]

/-- Every character of a rendered amount is a minus sign, a decimal point or
a digit character. -/
theorem mem_fmt2 (v : ℚ) : ∀ ch ∈ fmt2 v, ch = '-' ∨ ch = '.' ∨ ch ∈ digitChars := by
  intro ch hch
  rw [fmt2_eq] at hch
  rcases List.mem_append.mp hch with h | h
  · left
    revert h
    split_ifs <;> intro h
    · simpa using h
    · simp at h
  · rcases List.mem_append.mp h with h2 | h2
    · exact Or.inr (Or.inr (mem_natChars _ ch h2))
    · rcases List.mem_cons.mp h2 with rfl | h3
      · exact Or.inr (Or.inl rfl)
      · rcases List.mem_cons.mp h3 with rfl | h4
        · exact Or.inr (Or.inr (digitChar_mem _ (Nat.mod_lt _ (by norm_num))))
        · rcases List.mem_cons.mp h4 with rfl | h5
          · exact Or.inr (Or.inr (digitChar_mem _ (Nat.mod_lt _ (by norm_num))))
          · simp at h5

/-- A rendered amount contains no whitespace. -/
theorem fmt2_no_space (v : ℚ) : ∀ ch ∈ fmt2 v, isSp ch = false := by
  intro ch hch
  rcases mem_fmt2 v ch hch with rfl | rfl | h
  · rfl
  · rfl
  · exact (show ∀ c2 ∈ digitChars, isSp c2 = false by decide) ch h

/-- A rendered amount contains no bracket. -/
theorem fmt2_no_bracket (v : ℚ) : ∀ ch ∈ fmt2 v, isBr ch = false := by
  intro ch hch
  rcases mem_fmt2 v ch hch with rfl | rfl | h
  · rfl
  · rfl
  · exact (show ∀ c2 ∈ digitChars, isBr c2 = false by decide) ch h

/-- Leading characters that are not sign characters leave parseSign alone. -/
theorem parseSign_eq_of_digit (l r : Str) (hl : l ≠ []) (hmem : ∀ ch ∈ l, ch ∈ digitChars) :
    parseSign (l ++ r) = (1, l ++ r) := by
  cases l with
  | nil => exact absurd rfl hl
  | cons c t =>
    obtain ⟨h1, h2⟩ :=
      (show ∀ c2 ∈ digitChars, c2 ≠ '-' ∧ c2 ≠ '+' by decide) c (hmem c (List.mem_cons_self c t))
    rw [List.cons_append, parseSign, if_neg h1, if_neg h2]

/-- takeWhile and dropWhile split an all-true chunk followed by a stopper. -/
theorem takeWhile_append_stop (p : Char → Bool) :
    ∀ (l1 : Str) (y : Char) (l2 : Str), (∀ ch ∈ l1, p ch = true) → p y = false →
      (l1 ++ y :: l2).takeWhile p = l1 ∧ (l1 ++ y :: l2).dropWhile p = y :: l2 := by
  intro l1
  induction l1 with
  | nil =>
    intro y l2 h1 hy
    constructor
    · rw [List.nil_append, List.takeWhile_cons_of_neg (by simp [hy])]
    · rw [List.nil_append, List.dropWhile_cons_of_neg (by simp [hy])]
  | cons c t ih =>
    intro y l2 h1 hy
    have hc : p c = true := h1 c (List.mem_cons_self c t)
    obtain ⟨ht, hd⟩ := ih y l2 (fun ch hch => h1 ch (List.mem_cons_of_mem _ hch)) hy
    constructor
    · rw [List.cons_append, List.takeWhile_cons_of_pos hc, ht]
    · rw [List.cons_append, List.dropWhile_cons_of_pos hc, hd]

/-- takeWhile and dropWhile on an all-true list. -/
theorem takeWhile_all (p : Char → Bool) :
    ∀ l : Str, (∀ ch ∈ l, p ch = true) → l.takeWhile p = l ∧ l.dropWhile p = [] := by
  intro l
  induction l with
  | nil =>
    intro h
    exact ⟨rfl, rfl⟩
  | cons c t ih =>
    intro h
    have hc : p c = true := h c (List.mem_cons_self c t)
    obtain ⟨ht, hd⟩ := ih (fun ch hch => h ch (List.mem_cons_of_mem _ hch))
    constructor
    · rw [List.takeWhile_cons_of_pos hc, ht]
    · rw [List.dropWhile_cons_of_pos hc, hd]

/-- Value of a two-digit fraction. -/
theorem digitsToNat_two (d e : ℕ) (hd : d < 10) (he : e < 10) :
    digitsToNat [Nat.digitChar d, Nat.digitChar e] = 10 * d + e := by
  rw [digitsToNat, List.foldl_cons, List.foldl_cons, List.foldl_nil,
    digitChar_val d hd, digitChar_val e he]
  omega

/-- Characters printed for a natural number are digit characters in the
Char.isDigit sense. -/
theorem natChars_isDigit (a : ℕ) : ∀ ch ∈ natChars a, Char.isDigit ch = true := by
  intro ch hch
  exact (show ∀ c2 ∈ digitChars, Char.isDigit c2 = true by decide) ch (mem_natChars a ch hch)

/-- Parsing an integer part, a point and two fraction digits, after an
already-consumed sign. -/
theorem parseFloatNum_body (s : Str) (sg : ℚ) (a d e : ℕ) (hd : d < 10) (he : e < 10)
    (hsgn : parseSign s = (sg, natChars a ++ '.' :: [Nat.digitChar d, Nat.digitChar e])) :
    parseFloatNum s = some (sg * (((100 * a + 10 * d + e : ℕ) : ℚ) / 100)) := by
  obtain ⟨htw, hdw⟩ := takeWhile_append_stop Char.isDigit (natChars a) '.'
    [Nat.digitChar d, Nat.digitChar e] (natChars_isDigit a) (by decide)
  have hdig2 : ∀ ch ∈ [Nat.digitChar d, Nat.digitChar e], Char.isDigit ch = true := by
    intro ch hch
    rcases List.mem_cons.mp hch with rfl | h2
    · exact (show ∀ c2 ∈ digitChars, Char.isDigit c2 = true by decide) _ (digitChar_mem d hd)
    · rcases List.mem_cons.mp h2 with rfl | h3
      · exact (show ∀ c2 ∈ digitChars, Char.isDigit c2 = true by decide) _ (digitChar_mem e he)
      · simp at h3
  obtain ⟨htw2, hdw2⟩ := takeWhile_all Char.isDigit [Nat.digitChar d, Nat.digitChar e] hdig2
  rw [parseFloatNum, hsgn]
  simp only [htw, hdw]
  rw [if_neg (fun hh => natChars_ne_nil a hh.1)]
  simp only [htw2, hdw2]
  rw [parseExpTail, digitsToNat_natChars, digitsToNat_two d e hd he]
  have hlen : (10 : ℚ) ^ (List.length [Nat.digitChar d, Nat.digitChar e]) = 100 := by
    norm_num
  rw [hlen]
  have hval : (a : ℚ) + ((10 * d + e : ℕ) : ℚ) / 100 =
      ((100 * a + 10 * d + e : ℕ) : ℚ) / 100 := by
    push_cast
    ring
  rw [hval]

/-- qfloor is the floor. -/
theorem qfloor_eq (q : ℚ) : qfloor q = ⌊q⌋ := Rat.floor_def.symm

/-- Rounding an integer changes nothing. -/
theorem roundHalfEven_intCast (k : ℤ) : roundHalfEven ((k : ℤ) : ℚ) = k := by
  rw [roundHalfEven]
  rw [qfloor_eq, Int.floor_intCast, sub_self]
  norm_num

/-- An amount with at most two fraction digits is parsed back exactly from
its two-decimal rendering (syntactic layer, before the range check). -/
theorem parseFloatNum_fmt2 (v : ℚ) (h2 : (v * 100).den = 1) :
    parseFloatNum (fmt2 v) = some v := by
  obtain ⟨n, hn_def⟩ : ∃ n : ℤ, (v * 100).num = n := ⟨_, rfl⟩
  have hv100 : (n : ℚ) = v * 100 := by
    rw [← hn_def]
    exact Rat.coe_int_num_of_den_eq_one h2
  have hv : v = (n : ℚ) / 100 := by
    rw [hv100]
    ring
  by_cases hneg : v.num < 0
  · have hvneg : v < 0 := Rat.num_neg.mp hneg
    have hn : n < 0 := by
      rw [← hn_def, Rat.num_neg]
      nlinarith
    have hcast : (-v) * 100 = ((-n : ℤ) : ℚ) := by
      push_cast
      rw [hv100]
      ring
    have hm : (roundHalfEven ((-v) * 100)).toNat = (-n).toNat := by
      rw [hcast, roundHalfEven_intCast]
    have hmz : (((-n).toNat : ℕ) : ℚ) = ((-n : ℤ) : ℚ) := by
      exact_mod_cast congrArg (fun z : ℤ => (z : ℚ)) (Int.toNat_of_nonneg (by omega))
    have hfmt : fmt2 v = '-' :: (natChars ((-n).toNat / 100) ++
        '.' :: [Nat.digitChar ((-n).toNat / 10 % 10),
          Nat.digitChar ((-n).toNat % 10)]) := by
      rw [fmt2_eq, if_pos hneg, if_pos hneg, hm]
      rfl
    rw [hfmt]
    rw [parseFloatNum_body _ (-1) ((-n).toNat / 100)
      ((-n).toNat / 10 % 10) ((-n).toNat % 10)
      (Nat.mod_lt _ (by norm_num)) (Nat.mod_lt _ (by norm_num))
      (by rw [parseSign, if_pos rfl])]
    congr 1
    have harith : 100 * ((-n).toNat / 100) + 10 * ((-n).toNat / 10 % 10)
        + (-n).toNat % 10 = (-n).toNat := by
      omega
    rw [harith, hmz, hv]
    push_cast
    ring
  · have hnn : 0 ≤ n := by
      rw [← hn_def, Rat.num_nonneg]
      nlinarith [Rat.num_nonneg.mp (le_of_not_lt hneg)]
    have hcast : v * 100 = ((n : ℤ) : ℚ) := hv100.symm
    have hm : (roundHalfEven (v * 100)).toNat = n.toNat := by
      rw [hcast, roundHalfEven_intCast]
    have hmz : ((n.toNat : ℕ) : ℚ) = ((n : ℤ) : ℚ) := by
      exact_mod_cast congrArg (fun z : ℤ => (z : ℚ)) (Int.toNat_of_nonneg hnn)
    have hfmt : fmt2 v = natChars (n.toNat / 100) ++
        '.' :: [Nat.digitChar (n.toNat / 10 % 10), Nat.digitChar (n.toNat % 10)] := by
      rw [fmt2_eq, if_neg hneg, if_neg hneg, hm]
      rfl
    rw [hfmt]
    rw [parseFloatNum_body _ 1 (n.toNat / 100) (n.toNat / 10 % 10) (n.toNat % 10)
      (Nat.mod_lt _ (by norm_num)) (Nat.mod_lt _ (by norm_num))
      (parseSign_eq_of_digit _ _ (natChars_ne_nil _) (mem_natChars _))]
    congr 1
    have harith : 100 * (n.toNat / 100) + 10 * (n.toNat / 10 % 10)
        + n.toNat % 10 = n.toNat := by
      omega
    rw [harith, hmz, one_mul, hv]

/-- A nonzero amount with at most two fraction digits has magnitude at least
one hundredth, far above the underflow threshold. -/
theorem exact2_lower (v : ℚ) (h2 : (v * 100).den = 1) :
    v = 0 ∨ underflowBound ≤ |v| := by
  by_cases hv0 : v = 0
  · exact Or.inl hv0
  right
  have hn : ((v * 100).num : ℚ) = v * 100 := Rat.coe_int_num_of_den_eq_one h2
  have hnz : (v * 100).num ≠ 0 := by
    intro h
    apply hv0
    have hz : v * 100 = 0 := by
      rw [← hn, h]
      norm_num
    rcases mul_eq_zero.mp hz with h3 | h3
    · exact h3
    · norm_num at h3
  have h1 : (1 : ℚ) ≤ |((v * 100).num : ℚ)| := by
    rcases lt_or_gt_of_ne hnz with h3 | h3
    · rw [abs_of_nonpos (by exact_mod_cast h3.le)]
      have h4 : (v * 100).num ≤ -1 := by omega
      have h5 : ((v * 100).num : ℚ) ≤ -1 := by exact_mod_cast h4
      linarith
    · rw [abs_of_nonneg (by exact_mod_cast h3.le)]
      exact_mod_cast h3
  rw [hn, abs_mul, abs_of_pos (show (0 : ℚ) < 100 by norm_num)] at h1
  have h100 : (1 : ℚ) / 100 ≤ |v| := by linarith
  have hsmall : underflowBound ≤ (1 : ℚ) / 100 := by
    rw [underflowBound, div_le_div_iff₀ (by positivity) (by norm_num)]
    norm_num
  linarith

/-- An amount with at most two fraction digits is parsed back exactly from
its two-decimal rendering when its magnitude fits a float64 (the range check
of strconv.ParseFloat passes). -/
theorem parseFloat_fmt2 (v : ℚ) (h2 : (v * 100).den = 1) (hfit : fitsFloat v = true) :
    parseFloat (fmt2 v) = some v := by
  rw [parseFloat, parseFloatNum_fmt2 v h2]
  have hof : |v| < overflowBound := by
    rw [fitsFloat, decide_eq_true_eq] at hfit
    exact hfit
  have hrange : inFloat64Range v = true := by
    rw [inFloat64Range, Bool.and_eq_true, Bool.or_eq_true]
    refine ⟨decide_eq_true hof, ?_⟩
    rcases exact2_lower v h2 with h | h
    · exact Or.inl (decide_eq_true h)
    · exact Or.inr (decide_eq_true h)
  show (if inFloat64Range v = true then some v else none) = some v
  rw [if_pos hrange]

/-- Unpacking the parent-label well-formedness test. -/
theorem tokenOK_iff (t : Str) : tokenOK t = true ↔ (t ≠ [] ∧ ∀ ch ∈ t, isSp ch = false) := by
  rw [tokenOK]
  simp [List.all_eq_true]

/-- Unpacking the child-label well-formedness test. -/
theorem childOK_iff (c : Str) : childOK c = true ↔ (c ≠ [] ∧ c = joinSpace (fields c)) := by
  rw [childOK]
  simp

/-- Unpacking the amount well-formedness test. -/
theorem exact2_iff (v : ℚ) : exact2 v = true ↔ (v * 100).den = 1 := by
  rw [exact2]
  simp

/-- Fields of an emitted line: the parent token, the bracketed amount token,
then the fields of the child. -/
theorem fields_formatLine (p c : Str) (v : ℚ) (hpne : p ≠ [])
    (hpw : ∀ ch ∈ p, isSp ch = false) :
    fields (formatLine p v c) = p :: ('[' :: fmt2 v ++ [']']) :: fields c := by
  have h1 : formatLine p v c = p ++ ' ' :: ('[' :: (fmt2 v ++ (']' :: ' ' :: c))) := rfl
  rw [h1, fields_token_cons p _ hpne hpw]
  have h2 : '[' :: (fmt2 v ++ (']' :: ' ' :: c)) = ('[' :: fmt2 v ++ [']']) ++ ' ' :: c := by
    simp [List.append_assoc]
  rw [h2, fields_token_cons _ _ (by simp) ?hw]
  case hw =>
    intro ch hch
    rcases List.mem_cons.mp hch with rfl | h3
    · rfl
    · rcases List.mem_append.mp h3 with h4 | h4
      · exact fmt2_no_space v ch h4
      · simp at h4
        subst h4
        rfl

/-- Parsing back an emitted line recovers the edge verbatim. -/
theorem parseLine_formatLine (p c : Str) (v : ℚ) (hp : tokenOK p = true)
    (hc : childOK c = true) (hv : exact2 v = true) (hf : fitsFloat v = true) :
    parseLine (formatLine p v c) = some (p, v, c) := by
  obtain ⟨hpne, hpw⟩ := (tokenOK_iff p).mp hp
  obtain ⟨hcne, hcjoin⟩ := (childOK_iff c).mp hc
  have hfne : fields c ≠ [] := by
    intro h
    rw [h] at hcjoin
    exact hcne hcjoin
  simp only [parseLine, fields_formatLine p c v hpne hpw]
  rw [if_neg hfne, trimBrackets_wrap (fmt2 v) (fmt2_no_bracket v),
    parseFloat_fmt2 v ((exact2_iff v).mp hv) hf, ← hcjoin]

/-- An emitted line contains no newline character. -/
theorem formatLine_no_newline (p c : Str) (v : ℚ) (hp : tokenOK p = true)
    (hc : childOK c = true) : '\n' ∉ formatLine p v c := by
  obtain ⟨hpne, hpw⟩ := (tokenOK_iff p).mp hp
  obtain ⟨hcne, hcjoin⟩ := (childOK_iff c).mp hc
  intro hmem
  rw [show formatLine p v c = p ++ ' ' :: ('[' :: (fmt2 v ++ (']' :: ' ' :: c))) from rfl]
    at hmem
  rcases List.mem_append.mp hmem with h | h
  · exact absurd (hpw '\n' h) (by decide)
  · rcases List.mem_cons.mp h with h1 | h1
    · exact absurd h1 (by decide)
    · rcases List.mem_cons.mp h1 with h2 | h2
      · exact absurd h2 (by decide)
      · rcases List.mem_append.mp h2 with h3 | h3
        · exact absurd (fmt2_no_space v '\n' h3) (by decide)
        · rcases List.mem_cons.mp h3 with h4 | h4
          · exact absurd h4 (by decide)
          · rcases List.mem_cons.mp h4 with h5 | h5
            · exact absurd h5 (by decide)
            · rw [hcjoin] at h5
              rcases mem_joinSpace (fields c) '\n' h5 with h6 | ⟨t, ht, hcht⟩
              · exact absurd h6 (by decide)
              · exact absurd ((fields_tokens c t ht).2 '\n' hcht) (by decide)

/-- A key absent from the key list looks up to nothing. -/
theorem lookupEdge_eq_none (p c : Str) :
    ∀ g : Graph, (p, c) ∉ keys g → lookupEdge g p c = none := by
  intro g
  induction g with
  | nil =>
    intro h
    rfl
  | cons e g ih =>
    obtain ⟨a, b, v⟩ := e
    intro h
    rw [keys, List.map_cons, List.mem_cons] at h
    push_neg at h
    obtain ⟨hne, hnot⟩ := h
    have hcond : ¬(a = p ∧ b = c) := by
      rintro ⟨rfl, rfl⟩
      exact hne rfl
    rw [lookupEdge, if_neg hcond]
    exact ih hnot

/-- Writing to an absent key appends the new edge at the end. -/
theorem setEdge_fresh (p c : Str) (x : ℚ) : ∀ g : Graph, lookupEdge g p c = none →
    setEdge g p c x = g ++ [(p, c, x)] := by
  intro g
  induction g with
  | nil =>
    intro h
    rfl
  | cons e g ih =>
    obtain ⟨a, b, v⟩ := e
    intro h
    rw [lookupEdge] at h
    by_cases hab : a = p ∧ b = c
    · rw [if_pos hab] at h
      cases h
    · rw [if_neg hab] at h
      rw [setEdge, if_neg hab, ih h, List.cons_append]

/-- Processing an emitted line overwrites the edge it denotes. -/
theorem processLine_formatLine (g : Graph) (p c : Str) (v : ℚ) (hp : tokenOK p = true)
    (hc : childOK c = true) (hv : exact2 v = true) (hf : fitsFloat v = true) :
    processLine g (formatLine p v c) = some (setEdge g p c v) := by
  have hne : formatLine p v c ≠ [] := by
    obtain ⟨hpne, _⟩ := (tokenOK_iff p).mp hp
    cases p with
    | nil => exact absurd rfl hpne
    | cons a t => simp [formatLine]
  rw [processLine, if_neg hne, parseLine_formatLine p c v hp hc hv hf]

/-- A trailing empty line is skipped. -/
theorem readDataLines_append_nil_line : ∀ (ls : List Str) (g : Graph),
    readDataLines g (ls ++ [[]]) = readDataLines g ls := by
  intro ls
  induction ls with
  | nil =>
    intro g
    rfl
  | cons l ls ih =>
    intro g
    rw [List.cons_append, readDataLines, readDataLines]
    cases hpl : processLine g l
    · rfl
    · exact ih _

/-- Replaying the emitted lines of a well-formed graph reproduces its edges,
appended after the starting graph. -/
theorem readDataLines_generateText : ∀ gs g0 : Graph,
    (∀ e ∈ gs, edgeOK e = true) → (keys gs).Nodup →
    (∀ k ∈ keys gs, k ∉ keys g0) →
    readDataLines g0 (generateText gs) = some (g0 ++ gs) := by
  intro gs
  induction gs with
  | nil =>
    intro g0 _ _ _
    simp [generateText, readDataLines]
  | cons e gs ih =>
    intro g0 hok hnd hdisj
    obtain ⟨p, c, v⟩ := e
    have hek : edgeOK (p, c, v) = true := hok _ (List.mem_cons_self _ _)
    rw [edgeOK] at hek
    simp only [Bool.and_eq_true] at hek
    obtain ⟨⟨⟨hp, hc⟩, hv⟩, hf⟩ := hek
    rw [keys, List.map_cons] at hnd
    have hnd2 := List.nodup_cons.mp hnd
    have hfresh : lookupEdge g0 p c = none :=
      lookupEdge_eq_none p c g0 (hdisj (p, c) (by rw [keys, List.map_cons]; simp))
    have hstep := processLine_formatLine g0 p c v hp hc hv hf
    rw [setEdge_fresh p c v g0 hfresh] at hstep
    show readDataLines g0 (formatLine p v c :: generateText gs) = some (g0 ++ (p, c, v) :: gs)
    rw [readDataLines, hstep]
    show readDataLines (g0 ++ [(p, c, v)]) (generateText gs) = some (g0 ++ (p, c, v) :: gs)
    rw [ih (g0 ++ [(p, c, v)]) (fun e2 he2 => hok e2 (List.mem_cons_of_mem _ he2)) hnd2.2 ?_]
    · rw [List.append_assoc]
      rfl
    · intro k hk
      have hk0 : k ∉ keys g0 := hdisj k (by rw [keys, List.map_cons]; exact List.mem_cons_of_mem _ hk)
      have hkp : k ≠ (p, c) := by
        intro heq
        exact hnd2.1 (heq ▸ hk)
      intro hmem
      rw [keys, List.map_append] at hmem
      rcases List.mem_append.mp hmem with h | h
      · exact hk0 h
      · simp at h
        exact hkp h

/-- Unpacking the graph well-formedness test. -/
theorem graphOK_parts (g : Graph) (h : graphOK g = true) :
    (∀ e ∈ g, edgeOK e = true) ∧ (keys g).Nodup := by
  rw [graphOK, Bool.and_eq_true, List.all_eq_true, decide_eq_true_eq] at h
  exact h

/-- Counterexample to C5 as stated: a graph whose parent label "a b" contains
a space renders as the line "a b [1.00] c", which the replay tokenizer splits
into four tokens, so readData aborts and no graph (hence no equal text
projection) is produced. -/
theorem c5_counterexample : readData (renderText c5bad) = none := by
  with_unfolding_all decide

/-- Claim C5 amended: for a Graph whose parent labels are nonempty and
whitespace-free, whose child labels are nonempty and in canonical single-space
form, whose amounts have at most two fraction digits and magnitude below the
float64 overflow threshold, and whose keys are unique, re-ingesting the
emitted text projection via the replay path yields exactly the same Graph, so
the re-emitted text projection equals the original (in particular as a
multiset of lines). -/
theorem c5_amended (g : Graph) (h : graphOK g = true) :
    readData (renderText g) = some g ∧
    (readData (renderText g)).map generateText = some (generateText g) := by
  obtain ⟨hok, hnd⟩ := graphOK_parts g h
  have hnl : ∀ l ∈ generateText g, '\n' ∉ l := by
    intro l hl
    rw [generateText, List.mem_map] at hl
    obtain ⟨e, he, rfl⟩ := hl
    have hek := hok e he
    rw [edgeOK] at hek
    simp only [Bool.and_eq_true] at hek
    exact formatLine_no_newline e.1 e.2.1 e.2.2 hek.1.1.1 hek.1.1.2
  have hmain : readData (renderText g) = some g := by
    rw [readData, renderText, splitLines_render (generateText g) hnl,
      readDataLines_append_nil_line]
    have hres := readDataLines_generateText g [] hok hnd (by simp [keys])
    simpa using hres
  exact ⟨hmain, by rw [hmain]; rfl⟩

/-- Witness for the amended C5 at a concrete two-edge graph. -/
theorem c5_witness :
    readData (renderText c5wg) = some c5wg ∧
    (readData (renderText c5wg)).map generateText = some (generateText c5wg) :=
  c5_amended c5wg (by with_unfolding_all decide)

end ACS
